import Mathlib

/-!
Verification of the psion-software-index core pipeline against its
natural-language specification.  The definitions below are shallow
embeddings of the Python sources under `tools/`:

* `tools/containers.py` — the nested-container walker;
* `tools/common.py`     — the per-source reference resolvers;
* `tools/indexer.py`    — the release builder, grouper and overlay merger.

File-system trees, decoder results and stores are modelled as explicit
inductive data; all functions are executable.
-/

namespace PsionIndex

/-- Record for one hop of a provenance chain.  Modelled from the spec:
`model.ReferenceItem` is used by the sources but its module is not part of
the traced code; §3 of the spec defines it as
`{name: string, url: optional string}`, which matches every call site
(`model.ReferenceItem(name=..., url=...)`). -/
structure RefItem where
  name : String
  url : Option String
deriving Repr, DecidableEq

/-- ASCII model of Python `str.lower`, used by `path.lower()` and
`x[1][0]['name'].lower()`. -/
def lowerStr (s : String) : String :=
  String.mk (s.toList.map Char.toLower)

/-- Model of Python `str.endswith`. -/
def endsWithStr (s suffix : String) : Bool :=
  List.isSuffixOf suffix.toList s.toList

/-- Model of Python `str.startswith`. -/
def startsWithStr (s p : String) : Bool :=
  List.isPrefixOf p.toList s.toList

/-! ## Container walker (`tools/containers.py`)

A file-system location is a tree of entries.  A file's payload records what
the registered extraction procedure would observe for it: `plain` bytes
(extraction, if attempted, raises e.g. `zipfile.BadZipFile`), or an archive
whose extraction either succeeds with some contents or raises — `none`
covers `NotImplementedError`, `OSError`, `RuntimeError`,
`tarfile.ReadError`, `zlib.error` and `subprocess.CalledProcessError`,
all of which `walk` catches. -/

mutual
inductive FileData where
  | plain : FileData
  | archive : Option (List Entry) → FileData

inductive Entry where
  | file : String → FileData → Entry
  | dir : String → List Entry → Entry
end

/-- Embedding of `CONTAINER_MAPPING` from `tools/containers.py`: suffixes in
dict insertion order, mapped to the name of the registered procedure. -/
def CONTAINER_MAPPING : List (String × String) :=
  [(".7z", "7z"), (".cab", "7z"), (".ima", "7z"), (".iso", "7z"),
   (".tar.gz", "tar_gz"), (".tar", "tar"), (".tgz", "tar_gz"),
   (".zip", "zip"), (".vhd", "7z")]

/-- Embedding of `get_extraction_method`: first suffix match wins, matching
`path.lower().endswith(ext)`.  The suffixes contain no path separator, so
testing the file name is equivalent to testing the full path. -/
def get_extraction_method (path : String) : Option String :=
  CONTAINER_MAPPING.findSome?
    (fun p => if endsWithStr (lowerStr path) p.1 then some p.2 else none)

/-- Path components joined with the separator, as `os.path.relpath` renders
a relative path. -/
def pathStr (p : List String) : String :=
  String.intercalate "/" p

mutual
/-- Embedding of `walk` from `tools/containers.py` for a single location.
`rel` holds the path components of the location relative to the current
`relative_to` root (its own name included, matching
`os.path.relpath(path, relative_to)`); `chain` is the accumulated
`reference` argument. -/
def walk (e : Entry) (rel : List String) (chain : List RefItem) :
    List (List String × List RefItem) :=
  match e with
  | .dir _ entries => walkDir entries rel chain
  | .file n d => walkFile n d rel chain

/-- File case of `walk` (`rel` ends with the file's own name `n`): build a
`ReferenceItem` with `url=None`; if an extraction method is registered,
extract into a fresh scratch root and recurse with `relative_to` rebased to
that root — a failed extraction is caught, logged and yields nothing —
otherwise yield the leaf together with `reference + [reference_item]`. -/
def walkFile (n : String) (d : FileData) (rel : List String)
    (chain : List RefItem) : List (List String × List RefItem) :=
  let item : RefItem := { name := pathStr rel, url := none }
  match get_extraction_method n with
  | some _ =>
    match d with
    | .archive (some entries) => walkDir entries [] (chain ++ [item])
    | _ => []
  | none => [(rel, chain ++ [item])]

/-- Directory case: `os.walk` yields the files of the current directory
first (skipping resource-fork names beginning with `._`), then descends
into each subdirectory; plain directory descent adds no chain entry.
`rel` is the directory's own relative path. -/
def walkDir (entries : List Entry) (rel : List String)
    (chain : List RefItem) : List (List String × List RefItem) :=
  walkFiles entries rel chain ++ walkSubdirs entries rel chain

/-- Files of one directory listing, in order, skipping `._` names. -/
def walkFiles (entries : List Entry) (rel : List String)
    (chain : List RefItem) : List (List String × List RefItem) :=
  match entries with
  | [] => []
  | .file n d :: rest =>
    (if startsWithStr n "._" then [] else walkFile n d (rel ++ [n]) chain) ++
      walkFiles rest rel chain
  | .dir _ _ :: rest => walkFiles rest rel chain

/-- Subdirectories of one directory listing, visited recursively in order. -/
def walkSubdirs (entries : List Entry) (rel : List String)
    (chain : List RefItem) : List (List String × List RefItem) :=
  match entries with
  | [] => []
  | .file _ _ :: rest => walkSubdirs rest rel chain
  | .dir n es :: rest =>
    walkDir es (rel ++ [n]) chain ++ walkSubdirs rest rel chain
end

/-- Property of one yielded `(leafPath, reference)` pair relative to the
chain the walker was entered with: the walker appended a nonempty suffix,
its last element names the leaf's path relative to its immediate container,
and every appended element has `url = None`. -/
def chainOk (chain : List RefItem) (pc : List String × List RefItem) : Prop :=
  ∃ tail, pc.2 = chain ++ tail ∧ tail ≠ [] ∧
    tail.getLast? = some ⟨pathStr pc.1, none⟩ ∧ ∀ it ∈ tail, it.url = none

theorem chainOk_extend {chain : List RefItem} {item : RefItem}
    {pc : List String × List RefItem} (hu : item.url = none)
    (h : chainOk (chain ++ [item]) pc) : chainOk chain pc := by
  obtain ⟨tail, heq, hne, hlast, hurl⟩ := h
  refine ⟨item :: tail, by simpa using heq, by simp, ?_, ?_⟩
  · obtain ⟨x, xs, rfl⟩ := List.exists_cons_of_ne_nil hne
    simpa using hlast
  · intro it hit
    rcases List.mem_cons.mp hit with h | h
    · simpa [h] using hu
    · exact hurl it h

theorem walkFile_leaf (n : String) (d : FileData) (rel : List String)
    (chain : List RefItem) (hm : get_extraction_method n = none) :
    walkFile n d rel chain = [(rel, chain ++ [⟨pathStr rel, none⟩])] := by
  rcases d with _ | o
  · simp only [walkFile, hm]
  · rcases o with _ | es
    · simp only [walkFile, hm]
    · simp only [walkFile.eq_1, hm]

theorem walkFile_container (n : String) (m : String) (entries : List Entry)
    (rel : List String) (chain : List RefItem)
    (hm : get_extraction_method n = some m) :
    walkFile n (.archive (some entries)) rel chain =
      walkDir entries [] (chain ++ [⟨pathStr rel, none⟩]) := by
  simp only [walkFile, hm]

theorem walkFile_fail_plain (n : String) (m : String) (rel : List String)
    (chain : List RefItem) (hm : get_extraction_method n = some m) :
    walkFile n .plain rel chain = [] := by
  simp only [walkFile, hm]

theorem walkFile_fail_archive (n : String) (m : String) (rel : List String)
    (chain : List RefItem) (hm : get_extraction_method n = some m) :
    walkFile n (.archive none) rel chain = [] := by
  simp only [walkFile, hm]

theorem walkDir_chainOk :
    ∀ (entries : List Entry) (rel : List String) (chain : List RefItem),
      ∀ pc ∈ walkDir entries rel chain, chainOk chain pc := by
  apply walkDir.induct
    (fun n d rel chain =>
      ∀ pc ∈ walkFile n d rel chain, chainOk chain pc)
    (fun entries rel chain =>
      ∀ pc ∈ walkDir entries rel chain, chainOk chain pc)
    (fun entries rel chain =>
      ∀ pc ∈ walkSubdirs entries rel chain, chainOk chain pc)
    (fun entries rel chain =>
      ∀ pc ∈ walkFiles entries rel chain, chainOk chain pc)
  case _ =>
    intro n rel chain item m hm entries ih pc hpc
    rw [walkFile_container n m entries rel chain hm] at hpc
    exact chainOk_extend rfl (ih pc hpc)
  case _ =>
    intro n d rel chain m hm hnot pc hpc
    rcases d with _ | o
    · rw [walkFile_fail_plain n m rel chain hm] at hpc
      simp at hpc
    · rcases o with _ | es
      · rw [walkFile_fail_archive n m rel chain hm] at hpc
        simp at hpc
      · exact absurd rfl (hnot es)
  case _ =>
    intro n d rel chain hm pc hpc
    rw [walkFile_leaf n d rel chain hm] at hpc
    simp only [List.mem_singleton] at hpc
    subst hpc
    exact ⟨[⟨pathStr rel, none⟩], by simp, by simp, by simp, by simp⟩
  case _ =>
    intro entries rel chain ihfiles ihsub pc hpc
    rw [walkDir] at hpc
    rcases List.mem_append.mp hpc with h | h
    · exact ihfiles pc h
    · exact ihsub pc h
  case _ =>
    intro rel chain pc hpc
    rw [walkSubdirs] at hpc
    simp at hpc
  case _ =>
    intro rel chain n d rest ih pc hpc
    rw [walkSubdirs] at hpc
    exact ih pc hpc
  case _ =>
    intro rel chain a es rest ihdir ih pc hpc
    rw [walkSubdirs] at hpc
    rcases List.mem_append.mp hpc with h | h
    · exact ihdir pc h
    · exact ih pc h
  case _ =>
    intro rel chain pc hpc
    rw [walkFiles] at hpc
    simp at hpc
  case _ =>
    intro rel chain n d rest ihfile ih pc hpc
    rw [walkFiles] at hpc
    rcases List.mem_append.mp hpc with h | h
    · rcases hs : startsWithStr n "._" with _ | _ <;> rw [hs] at h
      · exact ihfile pc h
      · simp at h
    · exact ih pc h
  case _ =>
    intro rel chain a es rest ih pc hpc
    rw [walkFiles] at hpc
    exact ih pc hpc

theorem walkFile_chainOk (n : String) (d : FileData) (rel : List String)
    (chain : List RefItem) : ∀ pc ∈ walkFile n d rel chain, chainOk chain pc := by
  intro pc hpc
  rcases hm : get_extraction_method n with _ | m
  · rw [walkFile_leaf n d rel chain hm] at hpc
    simp only [List.mem_singleton] at hpc
    subst hpc
    exact ⟨[⟨pathStr rel, none⟩], by simp, by simp, by simp, by simp⟩
  · rcases d with _ | o
    · rw [walkFile_fail_plain n m rel chain hm] at hpc
      simp at hpc
    · rcases o with _ | es
      · rw [walkFile_fail_archive n m rel chain hm] at hpc
        simp at hpc
      · rw [walkFile_container n m es rel chain hm] at hpc
        exact chainOk_extend rfl (walkDir_chainOk es [] _ pc hpc)

theorem walk_chainOk (e : Entry) (rel : List String) (chain : List RefItem) :
    ∀ pc ∈ walk e rel chain, chainOk chain pc := by
  intro pc hpc
  rcases e with ⟨n, d⟩ | ⟨n, entries⟩
  · exact walkFile_chainOk n d rel chain pc (by rwa [walk] at hpc)
  · exact walkDir_chainOk entries rel chain pc (by rwa [walk] at hpc)

/-- Concrete zip-within-a-zip input: an outer zip whose extraction yields an
inner zip, which in turn extracts to two plain files. -/
def zipInZip : Entry :=
  .file "outer.zip" (.archive (some
    [.file "inner.zip" (.archive (some
      [.file "a.txt" .plain, .file "b.txt" .plain]))]))

/-- Claim C1 (counterexample).  Walking a zip-within-a-zip yields, for the
files inside the inner zip, chains of length 3 — the outer zip's entry, the
inner zip's entry and the leaf's own entry — not length 2 as claimed:
`walk` appends `reference_item` for the leaf itself on yield. -/
theorem c1_zip_in_zip_length_three :
    ((walk zipInZip ["outer.zip"] []).map (fun pc => pc.2.length) = [3, 3]) ∧
    ¬ ((walk zipInZip ["outer.zip"] []).map (fun pc => pc.2.length) = [2, 2]) := by
  constructor <;>
    · simp only [zipInZip, walk, walkFile, walkDir, walkFiles, walkSubdirs]
      decide

/-- Claim C1 (amended).  For every input location, every `(leaf, chain)`
pair yielded by `walk` has a chain of length ≥ 1 whose last element's name
is the leaf's path relative to its immediate container, and every element
produced by the walker has `url = None`; container entries appear in
outer-to-inner order, each nested container adding one element before the
final leaf element — so a zip within a zip yields a length-THREE chain for
files inside the inner zip (outer entry, then inner entry, then the leaf's
own entry), the outer zip's entry first. -/
theorem c1_walker_chain_invariant :
    (∀ (e : Entry) (rel : List String) (p : List String) (c : List RefItem),
        (p, c) ∈ walk e rel [] →
          1 ≤ c.length ∧ c.getLast? = some ⟨pathStr p, none⟩ ∧
            ∀ it ∈ c, it.url = none) ∧
    walk zipInZip ["outer.zip"] [] =
      [(["a.txt"], [⟨"outer.zip", none⟩, ⟨"inner.zip", none⟩, ⟨"a.txt", none⟩]),
       (["b.txt"], [⟨"outer.zip", none⟩, ⟨"inner.zip", none⟩, ⟨"b.txt", none⟩])] := by
  constructor
  · intro e rel p c hpc
    obtain ⟨tail, heq, hne, hlast, hurl⟩ := walk_chainOk e rel [] (p, c) hpc
    simp only [List.nil_append] at heq
    subst heq
    exact ⟨List.length_pos.mpr hne, hlast, hurl⟩
  · simp only [zipInZip, walk, walkFile, walkDir, walkFiles, walkSubdirs]
    decide

/-- Witness for `c1_walker_chain_invariant`: the invariant instantiated at a
single plain file. -/
theorem c1_walker_chain_invariant_witness :
    1 ≤ ([(⟨"a.txt", none⟩ : RefItem)]).length ∧
    ([(⟨"a.txt", none⟩ : RefItem)]).getLast? = some ⟨pathStr ["a.txt"], none⟩ ∧
    ∀ it ∈ [(⟨"a.txt", none⟩ : RefItem)], it.url = none :=
  c1_walker_chain_invariant.1 (.file "a.txt" .plain) ["a.txt"] ["a.txt"]
    [⟨"a.txt", none⟩]
    (by rw [walk, walkFile_leaf _ _ _ _ (by decide)]; simp; decide)

theorem walkFiles_append (xs ys : List Entry) (rel : List String)
    (chain : List RefItem) :
    walkFiles (xs ++ ys) rel chain =
      walkFiles xs rel chain ++ walkFiles ys rel chain := by
  induction xs with
  | nil => simp [walkFiles]
  | cons e rest ih =>
    rcases e with ⟨n, d⟩ | ⟨n, es⟩ <;>
      simp [walkFiles, ih, List.append_assoc]

theorem walkSubdirs_append (xs ys : List Entry) (rel : List String)
    (chain : List RefItem) :
    walkSubdirs (xs ++ ys) rel chain =
      walkSubdirs xs rel chain ++ walkSubdirs ys rel chain := by
  induction xs with
  | nil => simp [walkSubdirs]
  | cons e rest ih =>
    rcases e with ⟨n, d⟩ | ⟨n, es⟩ <;>
      simp [walkSubdirs, ih, List.append_assoc]

/-- Claim C2 (confirmed).  A container whose extraction raises — corrupt
or non-archive payload (`plain`) or a failing extraction (`archive none`,
covering unsupported features, non-zero tool exits and I/O errors) —
yields nothing (and `walk`, a total function here, does not raise), and
removing such a file from a directory listing leaves the walk of the
remaining siblings unchanged. -/
theorem c2_extraction_failure_nonfatal :
    (∀ (n m : String) (d : FileData) (rel : List String) (chain : List RefItem),
        get_extraction_method n = some m →
        d = .plain ∨ d = .archive none →
        walkFile n d rel chain = []) ∧
    (∀ (xs ys : List Entry) (n m : String) (d : FileData) (rel : List String)
        (chain : List RefItem),
        get_extraction_method n = some m →
        d = .plain ∨ d = .archive none →
        walkDir (xs ++ .file n d :: ys) rel chain =
          walkDir (xs ++ ys) rel chain) := by
  have hfail : ∀ (n m : String) (d : FileData) (rel : List String)
      (chain : List RefItem), get_extraction_method n = some m →
      d = .plain ∨ d = .archive none → walkFile n d rel chain = [] := by
    intro n m d rel chain hm hd
    rcases hd with rfl | rfl
    · exact walkFile_fail_plain n m rel chain hm
    · exact walkFile_fail_archive n m rel chain hm
  refine ⟨hfail, ?_⟩
  intro xs ys n m d rel chain hm hd
  rw [walkDir, walkDir, walkFiles_append, walkFiles_append,
    walkSubdirs_append, walkSubdirs_append]
  rw [show walkFiles (Entry.file n d :: ys) rel chain =
      (if startsWithStr n "._" then [] else walkFile n d (rel ++ [n]) chain) ++
        walkFiles ys rel chain from by rw [walkFiles]]
  rw [hfail n m d (rel ++ [n]) chain hm hd]
  rw [show walkSubdirs (Entry.file n d :: ys) rel chain =
      walkSubdirs ys rel chain from by rw [walkSubdirs]]
  simp

/-- Witness for `c2_extraction_failure_nonfatal`: a corrupt zip next to a
plain sibling. -/
theorem c2_extraction_failure_nonfatal_witness :
    walkFile "bad.zip" .plain ["bad.zip"] [] = [] ∧
    walkDir ([Entry.file "ok.txt" .plain] ++ Entry.file "bad.zip" .plain :: []) [] [] =
      walkDir ([Entry.file "ok.txt" .plain] ++ []) [] [] :=
  ⟨c2_extraction_failure_nonfatal.1 "bad.zip" "zip" .plain ["bad.zip"] []
      (by decide) (Or.inl rfl),
   c2_extraction_failure_nonfatal.2 [Entry.file "ok.txt" .plain] [] "bad.zip"
      "zip" .plain [] [] (by decide) (Or.inl rfl)⟩

/-! ## Reference resolver (`tools/common.py`, `InternetArchiveSource.assets`)

The archive-style source rewrites each raw chain produced by the walker
into one whose first positions carry resolvable download URLs. -/

/-- Uppercase hexadecimal digit, as `urllib.parse.quote` renders escapes. -/
def hexDigitChar (n : Nat) : Char :=
  if n < 10 then Char.ofNat (48 + n) else Char.ofNat (55 + n)

/-- Percent-encoding of a single byte under `urllib.parse.quote_plus` with
its default empty `safe` set: ASCII letters, digits and `_ . - ~` pass
through, a space becomes `+`, every other byte becomes `%XX`. -/
def quotePlusByte (b : Nat) : String :=
  if (48 ≤ b ∧ b ≤ 57) ∨ (65 ≤ b ∧ b ≤ 90) ∨ (97 ≤ b ∧ b ≤ 122) ∨
     b = 95 ∨ b = 46 ∨ b = 45 ∨ b = 126 then
    String.singleton (Char.ofNat b)
  else if b = 32 then "+"
  else String.mk ['%', hexDigitChar (b / 16), hexDigitChar (b % 16)]

/-- Model of `urllib.parse.quote_plus` over the string's UTF-8 bytes. -/
def quotePlus (s : String) : String :=
  String.join ((s.toList.flatMap (fun c =>
    (String.utf8EncodeChar c).map UInt8.toNat)).map quotePlusByte)

/-- The data of an `InternetArchiveSource` needed by `assets`: its `title`
(from item metadata), its item `id` and its configured `url`. -/
structure ArchiveSource where
  title : String
  id : String
  url : String

/-- Embedding of the local `source_reference` value of
`InternetArchiveSource.assets`. -/
def source_reference (s : ArchiveSource) : RefItem :=
  ⟨s.title, some ("https://archive.org/details/" ++ s.id)⟩

/-- Embedding of `resolve_root_reference_item`: the root chain item gains
the source's top-level item URL. -/
def resolve_root_reference_item (s : ArchiveSource) (r : RefItem) : RefItem :=
  ⟨r.name, some s.url⟩

/-- Embedding of `resolve_first_tier_reference_item`: the first nested
container gains the item URL with its percent-encoded name appended as a
path segment. -/
def resolve_first_tier_reference_item (s : ArchiveSource) (r : RefItem) : RefItem :=
  ⟨r.name, some (s.url ++ "/" ++ quotePlus r.name)⟩

/-- Embedding of `resolve_reference` inside `InternetArchiveSource.assets`:
the three branches are `len(reference) < 1`, `len(reference) == 1`, and the
general unpacking `root, first_tier, *tail = reference`. -/
def resolve_reference (s : ArchiveSource) : List RefItem → List RefItem
  | [] => [source_reference s]
  | [root] => [source_reference s, resolve_root_reference_item s root]
  | root :: first_tier :: tail =>
    ([source_reference s, resolve_root_reference_item s root] ++
      [resolve_first_tier_reference_item s first_tier]) ++ tail

/-- Claim C5 (confirmed).  The archive-style resolver maps an empty chain
to just the source-identity reference; a single-element chain to
source-identity plus the root resolved to the source's top-level item URL;
for longer chains position 1 gains the item URL with the percent-encoded
container name appended as a path segment; and the input chain from
position 2 onward is passed through unchanged (shifted one place by the
prepended source-identity reference).  The final conjunct exercises the
percent-encoding on a concrete name. -/
theorem c5_archive_resolver :
    (∀ s : ArchiveSource, resolve_reference s [] = [source_reference s]) ∧
    (∀ (s : ArchiveSource) (r : RefItem),
        resolve_reference s [r] = [source_reference s, ⟨r.name, some s.url⟩]) ∧
    (∀ (s : ArchiveSource) (root ft : RefItem) (tail : List RefItem),
        resolve_reference s (root :: ft :: tail) =
          source_reference s :: ⟨root.name, some s.url⟩ ::
            ⟨ft.name, some (s.url ++ "/" ++ quotePlus ft.name)⟩ :: tail) ∧
    (∀ (s : ArchiveSource) (c : List RefItem),
        (resolve_reference s c).drop 3 = c.drop 2) ∧
    quotePlus "Games Disk 1/demo.zip" = "Games+Disk+1%2Fdemo.zip" := by
  refine ⟨fun s => rfl, fun s r => rfl, fun s root ft tail => rfl, ?_, by decide⟩
  intro s c
  rcases c with _ | ⟨root, c⟩
  · simp [resolve_reference]
  · rcases c with _ | ⟨ft, tail⟩
    · simp [resolve_reference]
    · simp [resolve_reference]

/-! ## Icon selection (`tools/indexer.py`, `select_icon_dict`)

Icon dictionaries carry `filename`, `width`, `height`, `bpp` (and a content
hash, irrelevant to selection). -/

structure Icon where
  filename : String
  width : Nat
  height : Nat
  bpp : Nat
deriving Repr, DecidableEq

/-- Comparison along the Python sort key `(x['bpp'], x['width'])`:
lexicographic less-or-equal on the pair. -/
def iconKeyLe (a b : Icon) : Prop :=
  a.bpp < b.bpp ∨ (a.bpp = b.bpp ∧ a.width ≤ b.width)

instance : DecidableRel iconKeyLe := fun a b => by
  unfold iconKeyLe; infer_instance

instance : IsTotal Icon iconKeyLe := ⟨by intro a b; unfold iconKeyLe; omega⟩

instance : IsTrans Icon iconKeyLe := ⟨by intro a b c; unfold iconKeyLe; omega⟩

/-- Embedding of `select_icon_dict`: filter to square icons of width ≤ 48,
sort ascending by `(bpp, width)` with a stable sort (Python's `sorted`),
reverse, and take the first element if any.  `List.insertionSort` is the
stable ascending sort standing in for Timsort. -/
def select_icon_dict (icons : List Icon) : Option Icon :=
  let candidates := icons.filter (fun i => decide (i.width = i.height ∧ i.width ≤ 48))
  let sorted := (List.insertionSort iconKeyLe candidates).reverse
  if sorted.length < 1 then none else sorted.head?

/-- Reference tie-break semantics: the element with the maximal
`(bpp, width)` key, the LAST encountered winning among equal keys. -/
def pickLastMax : List Icon → Option Icon
  | [] => none
  | x :: xs =>
    match pickLastMax xs with
    | none => some x
    | some m => if iconKeyLe x m then some m else some x

theorem getLast?_some_mem {α : Type} {l : List α} {m : α}
    (h : l.getLast? = some m) : m ∈ l := by
  obtain ⟨hne, heq⟩ := List.mem_getLast?_eq_getLast h
  rw [heq]
  exact List.getLast_mem hne

theorem getLast?_orderedInsert (x : Icon) (l : List Icon)
    (hs : l.Sorted iconKeyLe) :
    (List.orderedInsert iconKeyLe x l).getLast? =
      some (match l.getLast? with
            | none => x
            | some m => if iconKeyLe x m then m else x) := by
  induction l with
  | nil => simp [List.orderedInsert]
  | cons y ys ih =>
    rw [List.sorted_cons] at hs
    obtain ⟨hy, hys⟩ := hs
    rw [List.orderedInsert]
    by_cases hxy : iconKeyLe x y
    · rw [if_pos hxy]
      rcases ys with _ | ⟨z, zs⟩
      · simp [List.getLast?_cons_cons, hxy]
      · rw [List.getLast?_cons_cons, List.getLast?_cons_cons]
        rcases hlast : (z :: zs).getLast? with _ | m
        · simp at hlast
        · have hm : m ∈ z :: zs := getLast?_some_mem hlast
          have hym : iconKeyLe y m := hy m hm
          have hxm : iconKeyLe x m := IsTrans.trans x y m hxy hym
          simp [hxm]
    · rw [if_neg hxy]
      rcases ho : List.orderedInsert iconKeyLe x ys with _ | ⟨w, ws⟩
      · have := List.orderedInsert_length iconKeyLe ys x
        rw [ho] at this
        simp at this
      · rw [List.getLast?_cons_cons, ← ho, ih hys]
        rcases ys with _ | ⟨z, zs⟩
        · simp [hxy]
        · rw [List.getLast?_cons_cons]

theorem getLast?_insertionSort (l : List Icon) :
    (List.insertionSort iconKeyLe l).getLast? = pickLastMax l := by
  induction l with
  | nil => rfl
  | cons x xs ih =>
    rw [List.insertionSort,
      getLast?_orderedInsert x _ (List.sorted_insertionSort iconKeyLe xs), ih]
    rcases h : pickLastMax xs with _ | m
    · simp [pickLastMax, h]
    · simp only [pickLastMax, h]
      by_cases hxm : iconKeyLe x m <;> simp [hxm]

theorem iconKeyLe_refl (a : Icon) : iconKeyLe a a := by
  unfold iconKeyLe; omega

theorem pickLastMax_cons_isSome (x : Icon) (xs : List Icon) :
    (pickLastMax (x :: xs)).isSome := by
  rcases h : pickLastMax xs with _ | m <;> simp only [pickLastMax, h]
  · rfl
  · split <;> rfl

theorem pickLastMax_spec (l : List Icon) (m : Icon)
    (h : pickLastMax l = some m) : m ∈ l ∧ ∀ c ∈ l, iconKeyLe c m := by
  induction l generalizing m with
  | nil => simp [pickLastMax] at h
  | cons x xs ih =>
    rcases hx : pickLastMax xs with _ | m2
    · rcases xs with _ | ⟨y, ys⟩
      · simp only [pickLastMax, Option.some_inj] at h
        subst h
        refine ⟨by simp, ?_⟩
        intro c hc
        simp only [List.mem_singleton] at hc
        subst hc
        exact iconKeyLe_refl c
      · have hs := pickLastMax_cons_isSome y ys
        rw [hx] at hs
        simp at hs
    · simp only [pickLastMax, hx] at h
      obtain ⟨hmem, hall⟩ := ih m2 hx
      by_cases hle : iconKeyLe x m2
      · rw [if_pos hle, Option.some_inj] at h
        rw [← h]
        refine ⟨List.mem_cons_of_mem x hmem, ?_⟩
        intro c hc
        rcases List.mem_cons.mp hc with rfl | hc2
        · exact hle
        · exact hall c hc2
      · rw [if_neg hle, Option.some_inj] at h
        rw [← h]
        have hm2x : iconKeyLe m2 x :=
          (IsTotal.total (r := iconKeyLe) x m2).resolve_left hle
        refine ⟨by simp, ?_⟩
        intro c hc
        rcases List.mem_cons.mp hc with rfl | hc2
        · exact iconKeyLe_refl c
        · exact IsTrans.trans c m2 x (hall c hc2) hm2x

/-- Claim C6 (counterexample).  Two candidate icons with the same bit-depth
and width: the selection returns the LAST encountered, not the first — the
`reversed(sorted(...))` pipeline reverses the stable sort, so among equal
keys the later element comes out first. -/
theorem c6_tie_goes_to_last_encountered :
    select_icon_dict [⟨"first.png", 32, 32, 8⟩, ⟨"second.png", 32, 32, 8⟩] =
      some ⟨"second.png", 32, 32, 8⟩ ∧
    (⟨"second.png", 32, 32, 8⟩ : Icon) ≠ ⟨"first.png", 32, 32, 8⟩ := by
  constructor
  · decide
  · decide

/-- Claim C6 (amended).  Icon selection keeps only square icons at most
48px on a side, picks the one with the highest bit-depth and, among equal
bit-depths, the largest width, breaks remaining ties by REVERSE discovery
order (the last encountered wins), and returns no icon when there are no
candidates; given {24x24,4bpp}, {32x32,8bpp}, {64x64,8bpp} it picks
{32x32,8bpp}. -/
theorem c6_icon_selection :
    (∀ icons : List Icon,
        select_icon_dict icons =
          pickLastMax (icons.filter
            (fun i => decide (i.width = i.height ∧ i.width ≤ 48)))) ∧
    (∀ (l : List Icon) (m : Icon), pickLastMax l = some m →
        m ∈ l ∧ ∀ c ∈ l, iconKeyLe c m) ∧
    select_icon_dict [⟨"a.png", 24, 24, 4⟩, ⟨"b.png", 32, 32, 8⟩,
        ⟨"c.png", 64, 64, 8⟩] = some ⟨"b.png", 32, 32, 8⟩ ∧
    select_icon_dict [] = none := by
  refine ⟨?_, pickLastMax_spec, by decide, by decide⟩
  intro icons
  show (if (List.insertionSort iconKeyLe
        (icons.filter (fun i => decide (i.width = i.height ∧ i.width ≤ 48)))).reverse.length < 1
      then none
      else (List.insertionSort iconKeyLe
        (icons.filter (fun i => decide (i.width = i.height ∧ i.width ≤ 48)))).reverse.head?) =
    pickLastMax (icons.filter (fun i => decide (i.width = i.height ∧ i.width ≤ 48)))
  rcases hc : icons.filter (fun i => decide (i.width = i.height ∧ i.width ≤ 48)) with _ | ⟨y, ys⟩ <;>
    rw [hc]
  · rfl
  · have hlen : (List.insertionSort iconKeyLe (y :: ys)).length = (y :: ys).length :=
      List.length_insertionSort iconKeyLe (y :: ys)
    rw [if_neg (by rw [List.length_reverse, hlen]; simp)]
    rw [List.head?_reverse]
    exact getLast?_insertionSort (y :: ys)

/-- Witness for `c6_icon_selection`: the maximality property instantiated
on a singleton list. -/
theorem c6_icon_selection_witness :
    (⟨"a.png", 24, 24, 4⟩ : Icon) ∈ [(⟨"a.png", 24, 24, 4⟩ : Icon)] ∧
    ∀ c ∈ [(⟨"a.png", 24, 24, 4⟩ : Icon)], iconKeyLe c ⟨"a.png", 24, 24, 4⟩ :=
  c6_icon_selection.2.1 [⟨"a.png", 24, 24, 4⟩] ⟨"a.png", 24, 24, 4⟩ (by decide)

/-! ## Releases and grouping (`tools/indexer.py`) -/

/-- Release kinds, from the `ReleaseKind` enum. -/
inductive ReleaseKind where
  | installer : ReleaseKind
  | standalone : ReleaseKind
deriving Repr, DecidableEq

/-- Embedding of the `Release` record (§3): the fields of
`Release.__init__`, with `identifier` stored as `uid`. -/
structure Release where
  filename : String
  size : Nat
  reference : List RefItem
  kind : ReleaseKind
  uid : String
  sha256 : String
  name : String
  version : String
  icons : List Icon
  tags : List String
deriving Repr, DecidableEq

/-- One step of `collections.defaultdict(list)` accumulation: append `x` to
the group of key `k`, creating the group at the end on first appearance. -/
def addToGroups {α : Type} (gs : List (String × List α)) (k : String)
    (x : α) : List (String × List α) :=
  if gs.any (fun g => g.1 == k) then
    gs.map (fun g => if g.1 == k then (g.1, g.2 ++ [x]) else g)
  else gs ++ [(k, [x])]

/-- Grouping with dict-insertion key order, as iterating a
`defaultdict(list)` yields keys in first-appearance order and each group's
items in append order. -/
def groupByOrdered {α : Type} (key : α → String) (xs : List α) :
    List (String × List α) :=
  xs.foldl (fun gs x => addToGroups gs (key x) x) []

/-- Text or numeric chunk of a natural-sort key.  Modelled from the spec:
`natsort` is an external library; its default algorithm splits a string
into alternating text chunks and maximal digit runs, the digit runs read
as numbers. -/
inductive NatChunk where
  | str : String → NatChunk
  | num : Nat → NatChunk
deriving Repr, DecidableEq

/-- Single pass building the chunk list, carrying the chunk in progress. -/
def natKeyCore : List Char → Option NatChunk → List NatChunk
  | [], cur =>
    match cur with
    | none => []
    | some ch => [ch]
  | c :: cs, cur =>
    if c.isDigit then
      match cur with
      | some (.num n) => natKeyCore cs (some (.num (n * 10 + (c.toNat - 48))))
      | some (.str s) => .str s :: natKeyCore cs (some (.num (c.toNat - 48)))
      | none => natKeyCore cs (some (.num (c.toNat - 48)))
    else
      match cur with
      | some (.num n) => .num n :: natKeyCore cs (some (.str (String.singleton c)))
      | some (.str s) => natKeyCore cs (some (.str (s.push c)))
      | none => natKeyCore cs (some (.str (String.singleton c)))

/-- Natural-sort key of a string: the chunk list, padded with a leading
empty text chunk when the string starts with a digit, so that two keys
always carry the same chunk kind at the same position. -/
def natKey (s : String) : List NatChunk :=
  match natKeyCore s.toList none with
  | .num n :: rest => .str "" :: .num n :: rest
  | ks => ks

/-- Code-point lexicographic strict comparison of character lists, the
comparison Python applies to strings. -/
def charListLt : List Char → List Char → Bool
  | [], [] => false
  | [], _ :: _ => true
  | _ :: _, [] => false
  | a :: as, b :: bs =>
    if a.toNat < b.toNat then true
    else if b.toNat < a.toNat then false
    else charListLt as bs

/-- Strict comparison of chunks: numbers numerically, text chunks as
Python strings; the cross cases never arise between padded keys. -/
def chunkLt : NatChunk → NatChunk → Bool
  | .num a, .num b => decide (a < b)
  | .str a, .str b => charListLt a.toList b.toList
  | .num _, .str _ => true
  | .str _, .num _ => false

/-- Lexicographic strict comparison of chunk lists (Python tuple order). -/
def chunkListLt : List NatChunk → List NatChunk → Bool
  | [], [] => false
  | [], _ :: _ => true
  | _ :: _, [] => false
  | a :: as, b :: bs =>
    if chunkLt a b then true
    else if chunkLt b a then false
    else chunkListLt as bs

/-- Natural (numeric-aware) less-or-equal on strings, the order produced by
`natsort.natsorted`. -/
def natLe (a b : String) : Bool :=
  !(chunkListLt (natKey b) (natKey a))

/-- Sort relation on `(version, installers)` groups under natural order of
the version string (the `natsorted(..., key=lambda x: x.version)` call). -/
def natRel : (String × List Release) → (String × List Release) → Prop :=
  fun a b => natLe a.1 b.1 = true

instance : DecidableRel natRel := fun a b => by
  unfold natRel; infer_instance

/-- Embedding of the version grouping in `Program.__init__`: partition the
installers by version string in first-appearance order, then sort the
groups by natural order of their version (each `Version.version` is its
group's first installer's version, i.e. the group key). -/
def program_versions (installers : List Release) :
    List (String × List Release) :=
  List.insertionSort natRel (groupByOrdered (fun r => r.version) installers)

/-- Sample release used by the concrete ordering theorems. -/
def sampleRelease (v : String) : Release :=
  { filename := "app.sis", size := 1, reference := [], kind := .installer,
    uid := "0x10000000", sha256 := v, name := "App", version := v,
    icons := [], tags := [] }

/-- Claim C7 (confirmed).  Versions are ordered by natural comparison:
"2.0", "10.0", "1.5" sort as 1.5, 2.0, 10.0 with "10.0" after "2.0",
although "10.0" precedes "2.0" lexicographically. -/
theorem c7_natural_version_order :
    (program_versions
        [sampleRelease "2.0", sampleRelease "10.0", sampleRelease "1.5"]).map
      Prod.fst = ["1.5", "2.0", "10.0"] ∧
    natLe "2.0" "10.0" = true ∧
    natLe "10.0" "2.0" = false ∧
    charListLt "10.0".toList "2.0".toList = true := by
  refine ⟨by decide, by decide, by decide, by decide⟩

theorem charListLt_asymm :
    ∀ as bs, charListLt as bs = true → charListLt bs as = false := by
  intro as
  induction as with
  | nil =>
    intro bs h
    rcases bs with _ | ⟨b, bs⟩
    · simp [charListLt] at h
    · simp [charListLt]
  | cons a as ih =>
    intro bs h
    rcases bs with _ | ⟨b, bs⟩
    · simp [charListLt] at h
    · simp only [charListLt] at h ⊢
      split_ifs at h ⊢ <;> try omega
      all_goals try rfl
      all_goals exact ih bs h

theorem charListLt_false_trans :
    ∀ as bs cs, charListLt bs as = false → charListLt cs bs = false →
      charListLt cs as = false := by
  intro as
  induction as with
  | nil =>
    intro bs cs h1 h2
    rcases cs with _ | ⟨c, cs⟩ <;> rfl
  | cons a as ih =>
    intro bs cs h1 h2
    rcases cs with _ | ⟨c, cs⟩
    · rcases bs with _ | ⟨b, bs⟩
      · exact h1
      · simp [charListLt] at h2
    · rcases bs with _ | ⟨b, bs⟩
      · simp [charListLt] at h1
      · simp only [charListLt] at h1 h2 ⊢
        split_ifs at h1 h2 ⊢ <;> try omega
        all_goals try rfl
        all_goals exact ih bs cs h1 h2

/-- Python string less-or-equal, `a <= b` as `not (b < a)`. -/
def strLeB (a b : String) : Bool :=
  !(charListLt b.toList a.toList)

/-- Name of the first release of a `(uid, installers)` group, lowercased:
the sort key `x[1][0]['name'].lower()` used by `group`. -/
def groupSortName (g : String × List Release) : String :=
  lowerStr (((g.2.head?).map Release.name).getD "")

/-- Sort relation on uid groups: lowercased first-release name order. -/
def groupRel : (String × List Release) → (String × List Release) → Prop :=
  fun a b => strLeB (groupSortName a) (groupSortName b) = true

instance : DecidableRel groupRel := fun a b => by
  unfold groupRel; infer_instance

instance : IsTotal (String × List Release) groupRel := by
  refine ⟨fun a b => ?_⟩
  unfold groupRel strLeB
  rcases h : charListLt (groupSortName b).toList (groupSortName a).toList
  · left; simp
  · right
    rw [charListLt_asymm _ _ h]
    rfl

instance : IsTrans (String × List Release) groupRel := by
  refine ⟨fun a b c h1 h2 => ?_⟩
  unfold groupRel strLeB at h1 h2 ⊢
  simp only [Bool.not_eq_true'] at h1 h2 ⊢
  exact charListLt_false_trans _ _ _ h1 h2

/-- Embedding of the program ordering in `group`: the uid groups (dict
insertion order) sorted by `x[1][0]['name'].lower()` with Python's stable
sort.  The per-release key stripping performed inside the loop does not
affect the ordering. -/
def group_programs (releases : List Release) : List (String × List Release) :=
  List.insertionSort groupRel (groupByOrdered (fun r => r.uid) releases)

/-- Two same-named releases under different uids, discovered in
anti-alphabetical uid order. -/
def sameNameB : Release :=
  { sampleRelease "1.0" with uid := "0xb", name := "Same" }

def sameNameA : Release :=
  { sampleRelease "1.0" with uid := "0xa", name := "same" }

/-- Claim C8 (counterexample).  Two Programs with equal case-folded names
come out in first-appearance (discovery) order, not UID order: `sorted` is
given only the name key and no UID tie-break, so its stability preserves
dict insertion order. -/
theorem c8_tie_not_broken_by_uid :
    (group_programs [sameNameB, sameNameA]).map Prod.fst = ["0xb", "0xa"] ∧
    lowerStr sameNameB.name = lowerStr sameNameA.name ∧
    ¬ (["0xb", "0xa"] = ["0xa", "0xb"]) := by
  refine ⟨by decide, by decide, by decide⟩

/-- Claim C8 (amended).  The Grouper's output Program list is sorted by
lowercased program name; Programs with equal lowercased names keep their
first-appearance order (the sort is stable and has no UID tie-break), as
the concrete run shows. -/
theorem c8_programs_sorted_by_name :
    (∀ releases : List Release,
        List.Sorted groupRel (group_programs releases)) ∧
    (group_programs [sameNameB, sameNameA]).map Prod.fst = ["0xb", "0xa"] := by
  refine ⟨fun releases => List.sorted_insertionSort groupRel _, by decide⟩

/-! ## Release builder (`tools/indexer.py`, `import_source` and friends)

The format decoder (`opolua`) is an external collaborator; each asset
carries the outcomes the decoder would report for it.  The error channel is
the `error_handler` closure of `index`, recording failing files keyed by
content hash. -/

/-- Embedding of `LANGUAGE_ORDER`. -/
def LANGUAGE_ORDER : List String :=
  ["en_GB", "en_US", "en_AU", "fr_FR", "de_DE", "it_IT", "nl_NL", "bg_BG", ""]

/-- Dict lookup on a name table. -/
def lookupAssoc : List (String × String) → String → Option String
  | [], _ => none
  | (k, v) :: rest, key => if k == key then some v else lookupAssoc rest key

/-- Embedding of `select_name`: the first language of `LANGUAGE_ORDER`
present in the table wins; `none` models the raised `MissingName`. -/
def select_name (names : List (String × String)) : Option String :=
  LANGUAGE_ORDER.findSome? (fun lang => lookupAssoc names lang)

/-- Embedding of `"0x%08x" % uid`: lowercase hex, zero-padded to width 8. -/
def hexUid (n : Nat) : String :=
  let ds := Nat.toDigits 16 n
  "0x" ++ String.mk (List.replicate (8 - ds.length) '0') ++ String.mk ds

/-- Error kinds routed to the error channel. -/
inductive ImpErr where
  | missingName : ImpErr
  | invalidInstaller : ImpErr
  | invalidAIF : ImpErr
  | decodeError : ImpErr
  | iconError : ImpErr
deriving Repr, DecidableEq

/-- Embedding of the `error_handler` closure in `index`: the failing file
is stored under its content hash; when a directory for that hash already
exists the duplicate is dropped with a warning. -/
def error_handler (store : List (String × ImpErr)) (sha : String)
    (e : ImpErr) : List (String × ImpErr) :=
  if store.any (fun p => p.1 == sha) then store else store ++ [(sha, e)]

/-- Decoder view of one `.aif` file: its content hash, the `dumpaif`
outcome — `(uid3, captions)` or a raised error — and the `get_icons`
outcome. -/
structure AifOracle where
  sha : String
  dump : Option (Nat × List (String × String))
  icons : Option (List Icon)
deriving Repr, DecidableEq

/-- Decoder view (`dumpsis`) of a `.sis` file. -/
structure SisInfo where
  uid : Nat
  names : List (String × String)
  version : String
deriving Repr, DecidableEq

/-- One discovered file together with everything `import_source` consults:
walker outputs (`path`, `reference`), size and content hash, the tags of
its directory, the sibling `.aif` found by `find_sibling` (if any), the
`dumpaif` view of the file itself, the `dumpsis` view (`none` models a
raised `InvalidInstaller`/extraction error), the tags discovered inside
the extracted installer, and the first inner `.aif` of the installer
contents as `(hash, get_icons outcome)`. -/
structure Asset where
  path : String
  reference : List RefItem
  size : Nat
  sha : String
  dirTags : List String
  sibling : Option AifOracle
  selfAif : AifOracle
  sisDump : Option SisInfo
  sisTags : List String
  sisInnerAif : Option (String × Option (List Icon))
deriving Repr, DecidableEq

/-- Embedding of `os.path.basename`: the characters after the last path
separator. -/
def basename (p : String) : String :=
  String.mk ((p.toList.reverse.takeWhile (fun c => c != '/')).reverse)

/-- Index of the last dot of a name. -/
def lastDotIdx (cs : List Char) : Option Nat :=
  ((List.range cs.length).filter (fun i => cs.getD i ' ' == '.')).getLast?

/-- Embedding of `os.path.splitext`: split at the last dot unless every
preceding character is also a dot. -/
def splitext (s : String) : String × String :=
  let cs := s.toList
  match lastDotIdx cs with
  | none => (s, "")
  | some i =>
    if (cs.take i).all (fun c => c == '.') then (s, "")
    else (String.mk (cs.take i), String.mk (cs.drop i))

/-- The `Release` record built at the end of the `.app`/`.opa` branch of
`import_source`: standalone kind, version literally `"Unknown"`, tags from
the containing directory. -/
def standaloneRelease (a : Asset) (uid nm : String) (ics : List Icon) :
    Release :=
  { filename := basename a.path, size := a.size, reference := a.reference,
    kind := .standalone, uid := uid, sha256 := a.sha, name := nm,
    version := "Unknown", icons := ics, tags := a.dirTags }

/-- Embedding of the `.app`/`.opa` branch of `import_source`.  With a
sibling `.aif`: `dumpaif`, uid update, `select_name`, `get_icons`, each
failure reported against the sibling and recovered from mid-way (already
assigned variables keep their values).  Without one: `dumpaif` on the file
itself, `get_icons`, then `select_name`, failures reported against the
file; the uid keeps its `shasum` fallback in every path of this arm.  A
`Release` is produced in every case. -/
def import_app (a : Asset) (st : List (String × ImpErr)) :
    Release × List (String × ImpErr) :=
  let fallback := (splitext (basename a.path)).1
  match a.sibling with
  | some o =>
    match o.dump with
    | none => (standaloneRelease a a.sha fallback [],
        error_handler st o.sha .decodeError)
    | some (uid3, captions) =>
      let uid := lowerStr (hexUid uid3)
      match select_name captions with
      | none => (standaloneRelease a uid fallback [],
          error_handler st o.sha .missingName)
      | some nm =>
        match o.icons with
        | none => (standaloneRelease a uid nm [],
            error_handler st o.sha .decodeError)
        | some ics => (standaloneRelease a uid nm ics, st)
  | none =>
    match a.selfAif.dump with
    | none => (standaloneRelease a a.sha fallback [],
        error_handler st a.sha .decodeError)
    | some (_, captions) =>
      match a.selfAif.icons with
      | none => (standaloneRelease a a.sha fallback [],
          error_handler st a.sha .decodeError)
      | some ics =>
        match select_name captions with
        | none => (standaloneRelease a a.sha fallback ics,
            error_handler st a.sha .decodeError)
        | some nm => (standaloneRelease a a.sha nm ics, st)

/-- Embedding of `import_installer` plus the `except` clauses of its call
site: a failed `dumpsis` reports the file and yields no release; a failed
`get_icons` on the first inner `.aif` reports that `.aif` but processing
continues; a missing name (raised while building the `Release`) is caught
by the caller, reports the file, and yields no release. -/
def import_sis (a : Asset) (st : List (String × ImpErr)) :
    Option Release × List (String × ImpErr) :=
  match a.sisDump with
  | none => (none, error_handler st a.sha .invalidInstaller)
  | some info =>
    let st1 := match a.sisInnerAif with
      | some (aifSha, none) => error_handler st aifSha .iconError
      | _ => st
    let icons := match a.sisInnerAif with
      | some (_, some ics) => ics
      | _ => []
    match select_name info.names with
    | none => (none, error_handler st1 a.sha .missingName)
    | some nm =>
      (some { filename := basename a.path, size := a.size,
              reference := a.reference, kind := .installer,
              uid := hexUid info.uid, sha256 := a.sha, name := nm,
              version := info.version, icons := icons, tags := a.sisTags },
       st1)

/-- Dispatch of `import_source` on the lowercased extension. -/
def importAsset (st : List (String × ImpErr)) (a : Asset) :
    Option Release × List (String × ImpErr) :=
  let ext := lowerStr (splitext (basename a.path)).2
  if ext == ".app" || ext == ".opa" then
    let p := import_app a st
    (some p.1, p.2)
  else if ext == ".sis" then
    import_sis a st
  else (none, st)

/-- Embedding of the `import_source` loop: fold over the source's assets,
collecting releases in discovery order and threading the error channel. -/
def import_source (assets : List Asset) (st : List (String × ImpErr)) :
    List Release × List (String × ImpErr) :=
  match assets with
  | [] => ([], st)
  | a :: rest =>
    let p := importAsset st a
    let q := import_source rest p.2
    (match p.1 with
     | some rel => rel :: q.1
     | none => q.1, q.2)

theorem mem_keys_error_handler (st : List (String × ImpErr)) (sha : String)
    (e : ImpErr) : sha ∈ (error_handler st sha e).map Prod.fst := by
  unfold error_handler
  split
  · rename_i h
    simp only [List.any_eq_true, beq_iff_eq] at h
    obtain ⟨p, hp, hpe⟩ := h
    exact List.mem_map.mpr ⟨p, hp, hpe⟩
  · simp

theorem nodup_keys_error_handler (st : List (String × ImpErr)) (sha : String)
    (e : ImpErr) (h : (st.map Prod.fst).Nodup) :
    ((error_handler st sha e).map Prod.fst).Nodup := by
  unfold error_handler
  split
  · exact h
  · rename_i hany
    simp only [List.any_eq_true, beq_iff_eq, not_exists] at hany
    rw [List.map_append]
    refine List.Nodup.append h (by simp) ?_
    intro x hx1 hx2
    simp only [List.map_cons, List.map_nil, List.mem_singleton] at hx2
    subst hx2
    obtain ⟨p, hp, hpe⟩ := List.mem_map.mp hx1
    exact hany p ⟨hp, hpe⟩

theorem import_app_errors (a : Asset) (st : List (String × ImpErr)) :
    (import_app a st).2 = st ∨
      ∃ sha e, (import_app a st).2 = error_handler st sha e := by
  rcases hsib : a.sibling with _ | o <;> simp only [import_app, hsib]
  · rcases hd : a.selfAif.dump with _ | ⟨u, captions⟩ <;> simp only [hd]
    · exact Or.inr ⟨_, _, rfl⟩
    · rcases hi : a.selfAif.icons with _ | ics <;> simp only [hi]
      · exact Or.inr ⟨_, _, rfl⟩
      · rcases hn : select_name captions with _ | nm <;> simp only [hn] <;>
          first
            | exact Or.inl trivial
            | exact Or.inl rfl
            | exact Or.inr ⟨_, _, rfl⟩
  · rcases hd : o.dump with _ | ⟨uid3, captions⟩ <;> simp only [hd]
    · exact Or.inr ⟨_, _, rfl⟩
    · rcases hn : select_name captions with _ | nm <;> simp only [hn]
      · exact Or.inr ⟨_, _, rfl⟩
      · rcases hi : o.icons with _ | ics <;> simp only [hi] <;>
          first
            | exact Or.inl trivial
            | exact Or.inl rfl
            | exact Or.inr ⟨_, _, rfl⟩

theorem import_sis_errors (a : Asset) (st : List (String × ImpErr)) :
    (import_sis a st).2 = st ∨
      (∃ sha e, (import_sis a st).2 = error_handler st sha e) ∨
      (∃ s1 e1 s2 e2, (import_sis a st).2 =
        error_handler (error_handler st s1 e1) s2 e2) := by
  rcases hd : a.sisDump with _ | info <;> simp only [import_sis, hd]
  · exact Or.inr (Or.inl ⟨_, _, rfl⟩)
  · rcases hai : a.sisInnerAif with _ | ⟨aifSha, ico⟩ <;> try simp only [hai]
    · rcases hn : select_name info.names with _ | nm
      all_goals try simp only [hn]
      all_goals first
        | exact Or.inl trivial
        | exact Or.inl rfl
        | exact Or.inr (Or.inl ⟨_, _, rfl⟩)
    · rcases ico with _ | ics <;>
        rcases hn : select_name info.names with _ | nm <;>
        try simp only [hn]
      all_goals first
        | exact Or.inl trivial
        | exact Or.inl rfl
        | exact Or.inr (Or.inl ⟨_, _, rfl⟩)
        | exact Or.inr (Or.inr ⟨_, _, _, _, rfl⟩)

theorem importAsset_errors_nodup (st : List (String × ImpErr)) (a : Asset)
    (h : (st.map Prod.fst).Nodup) :
    (((importAsset st a).2).map Prod.fst).Nodup := by
  simp only [importAsset]
  split
  · rcases import_app_errors a st with he | ⟨sha, e, he⟩
    · simpa [he] using h
    · simpa [he] using nodup_keys_error_handler st sha e h
  · split
    · rcases import_sis_errors a st with he | ⟨sha, e, he⟩ | ⟨s1, e1, s2, e2, he⟩
      · simpa [he] using h
      · simpa [he] using nodup_keys_error_handler st sha e h
      · simpa [he] using
          nodup_keys_error_handler _ s2 e2 (nodup_keys_error_handler st s1 e1 h)
    · exact h

theorem import_source_errors_nodup (assets : List Asset)
    (st : List (String × ImpErr)) (h : (st.map Prod.fst).Nodup) :
    (((import_source assets st).2).map Prod.fst).Nodup := by
  induction assets generalizing st with
  | nil => exact h
  | cons a rest ih =>
    exact ih (importAsset st a).2 (importAsset_errors_nodup st a h)

theorem import_app_version (a : Asset) (st : List (String × ImpErr)) :
    (import_app a st).1.version = "Unknown" := by
  rcases hsib : a.sibling with _ | o <;> simp only [import_app, hsib]
  · rcases hd : a.selfAif.dump with _ | ⟨u, captions⟩ <;> simp only [hd]
    · rfl
    · rcases hi : a.selfAif.icons with _ | ics <;> simp only [hi]
      · rfl
      · rcases hn : select_name captions with _ | nm <;> try simp only [hn]
        all_goals rfl
  · rcases hd : o.dump with _ | ⟨uid3, captions⟩ <;> simp only [hd]
    · rfl
    · rcases hn : select_name captions with _ | nm <;> simp only [hn]
      · rfl
      · rcases hi : o.icons with _ | ics <;> try simp only [hi]
        all_goals rfl

theorem import_sis_kind (a : Asset) (st st2 : List (String × ImpErr))
    (r : Release) (h : import_sis a st = (some r, st2)) :
    r.kind = .installer := by
  rcases hd : a.sisDump with _ | info <;> simp only [import_sis, hd] at h
  · simp at h
  · rcases hn : select_name info.names with _ | nm <;> simp only [hn] at h
    · simp at h
    · obtain ⟨h1, h2⟩ := Prod.mk.injEq .. ▸ h
      obtain rfl := Option.some_inj.mp h1
      rfl

theorem foldl_addToGroups_const {α : Type} (key : α → String) (k : String) :
    ∀ (xs : List α) (pre : List α), (∀ x ∈ xs, key x = k) →
      xs.foldl (fun gs x => addToGroups gs (key x) x) [(k, pre)] =
        [(k, pre ++ xs)] := by
  intro xs
  induction xs with
  | nil => intro pre _; simp
  | cons x rest ih =>
    intro pre h
    have hx : key x = k := h x (by simp)
    simp only [List.foldl_cons]
    rw [show addToGroups [(k, pre)] (key x) x = [(k, pre ++ [x])] from by
      unfold addToGroups; simp [hx]]
    rw [ih (pre ++ [x]) (fun y hy => h y (by simp [hy]))]
    simp

theorem groupByOrdered_const {α : Type} (key : α → String) (k : String)
    (x : α) (xs : List α) (h : ∀ y ∈ x :: xs, key y = k) :
    groupByOrdered key (x :: xs) = [(k, x :: xs)] := by
  have hx : key x = k := h x (by simp)
  unfold groupByOrdered
  simp only [List.foldl_cons]
  rw [show addToGroups [] (key x) x = [(k, [x])] from by
    unfold addToGroups; simp [hx]]
  rw [foldl_addToGroups_const key k xs [x] (fun y hy => h y (by simp [hy]))]
  simp

/-- Claim C10 (confirmed).  Every standalone Release gets the literal
version string `"Unknown"` regardless of decoder output, and a Program
whose releases all carry one version string has exactly one Version. -/
theorem c10_standalone_version_unknown :
    (∀ (st : List (String × ImpErr)) (a : Asset) (r : Release)
        (st2 : List (String × ImpErr)),
        importAsset st a = (some r, st2) → r.kind = .standalone →
        r.version = "Unknown") ∧
    (∀ rs : List Release, rs ≠ [] → (∀ r ∈ rs, r.version = "Unknown") →
        (program_versions rs).length = 1) := by
  constructor
  · intro st a r st2 h hkind
    simp only [importAsset] at h
    split at h
    · obtain ⟨h1, h2⟩ := Prod.mk.injEq .. ▸ h
      obtain rfl := Option.some_inj.mp h1
      exact import_app_version a st
    · split at h
      · rw [import_sis_kind a st st2 r h] at hkind
        simp at hkind
      · simp at h
  · intro rs hne hver
    rcases rs with _ | ⟨x, xs⟩
    · exact absurd rfl hne
    · unfold program_versions
      rw [groupByOrdered_const (fun r => r.version) "Unknown" x xs hver]
      rfl

/-- A plain standalone asset: no sibling `.aif`, undecodable contents. -/
def plainApp : Asset :=
  { path := "disk/test.app", reference := [], size := 10,
    sha := "appsha", dirTags := [], sibling := none,
    selfAif := { sha := "appsha", dump := none, icons := none },
    sisDump := none, sisTags := [], sisInnerAif := none }

/-- Witness for `c10_standalone_version_unknown`: a concrete standalone
asset and a concrete one-version release list. -/
theorem c10_standalone_version_unknown_witness :
    ((import_app plainApp []).1).version = "Unknown" ∧
    (program_versions [sampleRelease "Unknown"]).length = 1 := by
  constructor
  · exact c10_standalone_version_unknown.1 [] plainApp
      (import_app plainApp []).1 (import_app plainApp []).2
      (by decide) (by decide)
  · exact c10_standalone_version_unknown.2 [sampleRelease "Unknown"]
      (by decide) (by decide)

/-- A standalone `.app` asset whose sibling `.aif` decodes but carries no
name in any recognized language. -/
def missingNameApp : Asset :=
  { path := "disk/test.app", reference := [], size := 10, sha := "appsha",
    dirTags := [],
    sibling := some { sha := "aifsha",
                      dump := some (0x12345678, [("xx_XX", "Foo")]),
                      icons := some [] },
    selfAif := { sha := "appsha", dump := none, icons := none },
    sisDump := none, sisTags := [], sisInnerAif := none }

/-- Claim C3 (counterexample).  A discovered `.app` file whose decoder
reports no name in any recognized language DOES become a Release: the
`MissingName` raised by `select_name` is caught inside the `.app` branch,
the error is reported against the sibling `.aif`, and the release is still
appended with the filename-derived fallback name. -/
theorem c3_standalone_missing_name_still_released :
    select_name [("xx_XX", "Foo")] = none ∧
    (import_source [missingNameApp] []).1.map Release.sha256 = ["appsha"] ∧
    (import_source [missingNameApp] []).1.map Release.name = ["test"] ∧
    (import_source [missingNameApp] []).2 =
      [("aifsha", ImpErr.missingName)] := by
  refine ⟨by decide, by decide, by decide, by decide⟩

/-- Claim C3 (amended).  A `.sis` file whose decoder reports no name in
any recognized language does not become a Release and its hash is recorded
in the error channel; the channel records each content hash at most once —
a failing file whose hash is already present is dropped (with a warning) —
so after any run its hashes are duplicate-free; a `.app`/`.opa` file with
no recognized name still becomes a Release with a fallback name, the
failure being reported to the error channel. -/
theorem c3_missing_name_handling :
    (∀ (st : List (String × ImpErr)) (a : Asset) (info : SisInfo),
        lowerStr (splitext (basename a.path)).2 = ".sis" →
        a.sisDump = some info →
        select_name info.names = none →
        (importAsset st a).1 = none ∧
          a.sha ∈ ((importAsset st a).2).map Prod.fst) ∧
    (∀ (st : List (String × ImpErr)) (sha : String) (e : ImpErr),
        sha ∈ st.map Prod.fst → error_handler st sha e = st) ∧
    (∀ (assets : List Asset) (st : List (String × ImpErr)),
        (st.map Prod.fst).Nodup →
        (((import_source assets st).2).map Prod.fst).Nodup) ∧
    (∀ (st : List (String × ImpErr)) (a : Asset),
        lowerStr (splitext (basename a.path)).2 = ".app" ∨
        lowerStr (splitext (basename a.path)).2 = ".opa" →
        ((importAsset st a).1).isSome) := by
  refine ⟨?_, ?_, import_source_errors_nodup, ?_⟩
  · intro st a info hext hdump hname
    simp only [importAsset, hext]
    rw [if_neg (by decide), if_pos (by decide)]
    simp only [import_sis, hdump, hname]
    exact ⟨trivial, mem_keys_error_handler _ a.sha .missingName⟩
  · intro st sha e hmem
    unfold error_handler
    rw [if_pos]
    obtain ⟨p, hp, hpe⟩ := List.mem_map.mp hmem
    exact List.any_eq_true.mpr ⟨p, hp, by simp [hpe]⟩
  · intro st a hext
    rcases hext with h | h <;> simp only [importAsset, h] <;>
      rw [if_pos (by decide)] <;> rfl

/-- A `.sis` asset that decodes but carries no recognized name. -/
def missingNameSis : Asset :=
  { path := "disk/app.sis", reference := [], size := 10, sha := "sissha",
    dirTags := [], sibling := none,
    selfAif := { sha := "sissha", dump := none, icons := none },
    sisDump := some { uid := 0x10000088, names := [("xx_XX", "Bar")],
                      version := "1.0" },
    sisTags := [], sisInnerAif := none }

/-- Witness for `c3_missing_name_handling`: the `.sis` exclusion, the
duplicate drop, and the `.app` inclusion at concrete inputs. -/
theorem c3_missing_name_handling_witness :
    ((importAsset [] missingNameSis).1 = none ∧
      "sissha" ∈ ((importAsset [] missingNameSis).2).map Prod.fst) ∧
    error_handler [("h1", ImpErr.missingName)] "h1" ImpErr.decodeError =
      [("h1", ImpErr.missingName)] ∧
    ((importAsset [] missingNameApp).1).isSome := by
  refine ⟨?_, ?_, ?_⟩
  · exact c3_missing_name_handling.1 [] missingNameSis
      { uid := 0x10000088, names := [("xx_XX", "Bar")], version := "1.0" }
      (by decide) (by decide) (by decide)
  · exact c3_missing_name_handling.2.1 [("h1", ImpErr.missingName)] "h1"
      ImpErr.decodeError (by decide)
  · exact c3_missing_name_handling.2.2.2 [] missingNameApp (Or.inl (by decide))

/-! ## Content-addressed staging (`tools/indexer.py`, `import_installer`
lines `sha256 = shasum(path); shutil.copyfile(path, join(output, sha256))`,
and the same pair in the `.app` branch of `import_source`). -/

/-- Embedding of the staging step: the files store maps each hash to the
staged bytes, and `copyfile` writes the source's bytes at the destination
hash — raising nothing whether or not the destination exists. -/
def stage_file {κ β : Type} [DecidableEq κ] (hashOf : β → κ)
    (store : κ → Option β) (content : β) : κ → Option β :=
  fun k => if k = hashOf content then some content else store k

/-- Claim C4 (confirmed).  When the destination hash already exists in a
hash-consistent store, staging leaves the store extensionally unchanged
(the byte-identical overwrite is a no-op and no error is raised — the
function is total), and staging never changes any other key. -/
theorem c4_staging_write_once :
    ∀ (κ β : Type) (inst : DecidableEq κ) (hashOf : β → κ)
      (store : κ → Option β) (content : β),
      ((∃ b, store (hashOf content) = some b) →
        Function.Injective hashOf →
        (∀ h x, store h = some x → hashOf x = h) →
        @stage_file κ β inst hashOf store content = store) ∧
      (∀ k, k ≠ hashOf content →
        @stage_file κ β inst hashOf store content k = store k) := by
  intro κ β inst hashOf store content
  constructor
  · rintro ⟨b, hb⟩ hinj hcons
    funext k
    simp only [stage_file]
    by_cases hk : k = hashOf content
    · subst hk
      rw [if_pos rfl, hb]
      have hhb : hashOf b = hashOf content := hcons _ _ hb
      rw [hinj hhb]
    · rw [if_neg hk]
  · intro k hk
    simp only [stage_file]
    rw [if_neg hk]

/-- Witness for `c4_staging_write_once`: an identity-hashed store holding
the entry `5`. -/
theorem c4_staging_write_once_witness :
    stage_file id (fun k => if k = 5 then some 5 else none) 5 =
      (fun k : Nat => if k = 5 then some 5 else none) ∧
    stage_file id (fun k => if k = 5 then some 5 else none) 5 7 =
      (fun k : Nat => if k = 5 then some 5 else none) 7 := by
  constructor
  · exact (c4_staging_write_once Nat Nat inferInstance id
        (fun k => if k = 5 then some 5 else none) 5).1
      ⟨5, by decide⟩ (fun a b h => h)
      (by
        intro h x hx
        split at hx
        · rename_i h5
          cases hx
          simp [h5]
        · exact absurd hx (by simp))
  · exact (c4_staging_write_once Nat Nat inferInstance id
        (fun k => if k = 5 then some 5 else none) 5).2 7 (by decide)

/-! ## Overlay merger (`tools/indexer.py`, `overlay`)

The overlay step reads the grouped index from the index directory, merges
externally supplied metadata and screenshots keyed by uid, deletes the
previous output directories wholesale and rewrites them.  JSON values and
the on-disk directories are modelled as explicit data. -/

inductive JValue where
  | str : String → JValue
  | num : Nat → JValue
  | arr : List JValue → JValue
  | obj : List (String × JValue) → JValue
deriving Repr

/-- A JSON object with Python dict key order. -/
abbrev JObj := List (String × JValue)

/-- Python dict assignment `application[key] = value`: replace the value in
place if the key exists, otherwise append the pair. -/
def setKey (o : JObj) (k : String) (v : JValue) : JObj :=
  if o.any (fun p => p.1 == k) then
    o.map (fun p => if p.1 == k then (k, v) else p)
  else o ++ [(k, v)]

/-- Dict lookup. -/
def lookupKey : JObj → String → Option JValue
  | [], _ => none
  | (k, v) :: rest, key => if k == key then some v else lookupKey rest key

/-- Generic association-list lookup keyed by string. -/
def assocFind {α : Type} : List (String × α) → String → Option α
  | [], _ => none
  | (k, v) :: rest, key => if k == key then some v else assocFind rest key

/-- A front-matter document: free-form metadata plus body text, as
`frontmatter.load` returns it. -/
structure OverlayDoc where
  content : String
  metadata : List (String × JValue)

/-- One screenshot file of an overlay directory with its decoded pixel
size (the external `PIL.Image` collaborator). -/
structure ScreenshotFile where
  name : String
  width : Nat
  height : Nat

/-- One overlay directory: its `.png` listing and optional `index.md`. -/
structure OverlayEntry where
  screenshots : List ScreenshotFile
  doc : Option OverlayDoc

/-- The overlay map built from the overlay directories, keyed by uid. -/
abbrev Overlay := List (String × OverlayEntry)

/-- Order on screenshot files by name, as `sorted(screenshots)` orders the
paths of one directory. -/
def shotRel : ScreenshotFile → ScreenshotFile → Prop :=
  fun a b => strLeB a.name b.name = true

instance : DecidableRel shotRel := fun a b => by
  unfold shotRel; infer_instance

/-- Embedding of the merge body for one application: no overlay entry —
pass through untouched (`continue`); otherwise inject `description` from
the document content and then every metadata key in order (later keys
overwrite same-named fields), and attach the screenshot list sorted by
filename, each annotated with its pixel size and relative path. -/
def mergeApplication (ov : Overlay) (app : JObj) : JObj :=
  match lookupKey app "uid" with
  | some (.str uid) =>
    match assocFind ov uid with
    | none => app
    | some entry =>
      let app1 := match entry.doc with
        | some d => (d.metadata).foldl (fun acc kv => setKey acc kv.1 kv.2)
            (setKey app "description" (.str d.content))
        | none => app
      let shots := List.insertionSort shotRel entry.screenshots
      setKey app1 "screenshots" (.arr (shots.map (fun s =>
        .obj [("width", .num s.width), ("height", .num s.height),
              ("path", .str ("screenshots/" ++ uid ++ "/" ++ s.name))])))
  | _ => app

/-- Contents of the index directory consumed by `overlay`: the grouped
programs plus the files copied through unchanged. -/
structure IndexData where
  programs : List JObj
  sources : JValue
  summary : JValue
  groups : JValue
  files : List (String × String)
  icons : List (String × String)

/-- The screenshot directories written under the output: one per indexed
program with an overlay entry, holding the copied files in sorted order. -/
def screenshotDirs (ov : Overlay) (programs : List JObj) :
    List (String × List String) :=
  programs.filterMap (fun app =>
    match lookupKey app "uid" with
    | some (.str uid) =>
      match assocFind ov uid with
      | some entry =>
        some (uid, (List.insertionSort shotRel entry.screenshots).map
          (fun s => s.name))
      | none => none
    | _ => none)

/-- Everything `overlay` writes below the output directory, the `api/v1`
copies included. -/
structure OutputData where
  programs : List JObj
  sources : JValue
  summary : JValue
  groups : JValue
  files : List (String × String)
  icons : List (String × String)
  screenshots : List (String × List String)
  apiPrograms : List JObj
  apiSources : JValue
  apiSummary : JValue
  apiGroups : JValue
  apiIcons : List (String × String)
  apiScreenshots : List (String × List String)

/-- The output `overlay` produces from the index directory contents. -/
def overlayOutput (ov : Overlay) (idx : IndexData) : OutputData :=
  let programs := idx.programs.map (mergeApplication ov)
  let shots := screenshotDirs ov idx.programs
  { programs := programs, sources := idx.sources, summary := idx.summary,
    groups := idx.groups, files := idx.files, icons := idx.icons,
    screenshots := shots,
    apiPrograms := programs, apiSources := idx.sources,
    apiSummary := idx.summary, apiGroups := idx.groups,
    apiIcons := idx.icons, apiScreenshots := shots }

/-- The library directories `overlay` touches: the read-only index
directory and the output directory it replaces. -/
structure LibState where
  index : IndexData
  output : Option OutputData

/-- Embedding of `overlay`: load the grouped index from the index
directory, delete the previous output wholesale
(`shutil.rmtree` of every destination), and write the merged output; the
index directory is never written. -/
def overlayOp (ov : Overlay) (s : LibState) : LibState :=
  { s with output := some (overlayOutput ov s.index) }

/-- Claim C9 (confirmed).  Running the Overlay Merger twice with the same
grouped-program input and the same overlay entries leaves the state of the
second run identical to the first: the output is recomputed purely from
the untouched index directory, so the second run changes nothing. -/
theorem c9_overlay_idempotent :
    ∀ (ov : Overlay) (s : LibState),
      overlayOp ov (overlayOp ov s) = overlayOp ov s :=
  fun _ _ => rfl

end PsionIndex
